import Mathlib

/-!
Verification of the `pathlib` walk engine, query filter, relative-path
computation and symlink resolution against their natural-language
specification.

The Go source is shallowly embedded:
* `os.FileMode` is embedded as the classification `Kind` of a node
  (regular file, directory, symlink), which is the only part of the mode
  the walk engine inspects (through the repository helpers
  `IsFile`/`IsDir`/`IsSymlink` over mode bits).
* Go `error` values are embedded as the inductive `GoErr`; `nil` errors
  are `Option.none`.  `errors.Is` on sentinel values becomes equality.
* The pluggable afero backend is an external collaborator: a directory
  tree together with the outcome of every backend call the engine can
  make (`ReadDir`, `Stat`, `Lstat`) is embedded as the rose tree
  `FsTree`, so a node records what the backend answers for it.
* The visitor callback (`WalkFunc`) is a pure function; the sequence of
  visitor invocations performed by an imperative walk is returned
  explicitly as a trace (`List Visit`).
-/

deriving instance DecidableEq for Except

namespace Pathlib

/-- Errors of `errors.go`, plus the opaque error values that the backend or a
visitor can produce (`io`), the ad-hoc formatted error built by
`RelativeTo` (`relativeToMismatch`), and a distinguished outcome for a Go
runtime panic (`indexOutOfRange`), which the Go code does not catch. -/
inductive GoErr where
  /-- ErrDoesNotImplement, wrapped with the name of the missing interface. -/
  | doesNotImplement (interfaceName : String)
  /-- ErrInfoIsNil. -/
  | infoIsNil
  /-- ErrInvalidAlgorithm. -/
  | invalidAlgorithm
  /-- ErrLstatNotPossible. -/
  | lstatNotPossible
  /-- ErrStopWalk. -/
  | stopWalk
  /-- An opaque backend I/O error or visitor-produced error, identified by a code. -/
  | io (code : Nat)
  /-- The formatted error produced by `RelativeTo` via `errors.Errorf`,
  carrying the two paths of the message (Go strings are embedded as their
  character lists). -/
  | relativeToMismatch (this other : List Char)
  /-- A Go runtime panic from calling a method on a nil pointer. -/
  | nilDereference
  /-- A Go runtime panic from an out-of-range slice index (not an `error`
  value in Go; modelled as a distinguished abnormal outcome). -/
  | indexOutOfRange
  /-- Modelled from the spec: the skip-subtree sentinel `ErrWalkSkipSubtree`.
  The sentinel is referenced by the repository tests but its declaration is
  not part of the sources under verification. -/
  | skipSubtree
deriving DecidableEq, Repr

/-- Classification of a filesystem object, the part of `os.FileMode` the
engine inspects. -/
inductive Kind where
  | file
  | dir
  | symlink
deriving DecidableEq, Repr

/-- The part of `os.FileInfo` the engine reads: mode classification and size. -/
structure FileInfo where
  kind : Kind
  size : Int
deriving DecidableEq, Repr

/-- Repository helper over mode bits: the object is a directory. -/
def IsDir (info : FileInfo) : Bool :=
  info.kind == Kind.dir

/-- Repository helper over mode bits: the object is a regular file. -/
def IsFile (info : FileInfo) : Bool :=
  info.kind == Kind.file

/-- Repository helper over mode bits: the object is a symbolic link. -/
def IsSymlink (info : FileInfo) : Bool :=
  info.kind == Kind.symlink

/-- The struct `WalkOpts` of `walk.go`.  `Algorithm` is an integer constant
in Go (`AlgorithmBasic = 0`, `AlgorithmDepthFirst = 1`); it is kept as an
integer so that unrecognized selectors are representable. -/
structure WalkOpts where
  Depth : Int
  Algorithm : Int
  FollowSymlinks : Bool
  MinimumFileSize : Int
  MaximumFileSize : Int
  VisitFiles : Bool
  VisitDirs : Bool
  VisitSymlinks : Bool
deriving DecidableEq, Repr

/-- The constant `AlgorithmBasic`. -/
def AlgorithmBasic : Int := 0

/-- The constant `AlgorithmDepthFirst`. -/
def AlgorithmDepthFirst : Int := 1

/-- The function `DefaultWalkOpts` of `walk.go`. -/
def DefaultWalkOpts : WalkOpts :=
  { Depth := -1
    Algorithm := AlgorithmBasic
    FollowSymlinks := false
    MinimumFileSize := -1
    MaximumFileSize := -1
    VisitFiles := true
    VisitDirs := true
    VisitSymlinks := true }

/-- The method `MeetsMinimumSize` of `walk.go`. -/
def MeetsMinimumSize (w : WalkOpts) (size : Int) : Bool :=
  if w.MinimumFileSize < 0 then true
  else decide (size ≥ w.MinimumFileSize)

/-- The method `MeetsMaximumSize` of `walk.go`. -/
def MeetsMaximumSize (w : WalkOpts) (size : Int) : Bool :=
  if w.MaximumFileSize < 0 then true
  else decide (size ≤ w.MaximumFileSize)

/-- The method `maxDepthReached` of `walk.go`. -/
def maxDepthReached (w : WalkOpts) (currentDepth : Int) : Bool :=
  if w.Depth ≥ 0 ∧ currentDepth > w.Depth then true else false

/-- The method `passesQuerySpecification` of `walk.go`.  The Go function
returns a `(bool, error)` pair whose error component is always `nil`; the
pair is kept to mirror the call sites, which check the error. -/
def passesQuerySpecification (w : WalkOpts) (info : FileInfo) : Bool × Option GoErr :=
  if IsFile info then
    if !w.VisitFiles then (false, none)
    else if !MeetsMinimumSize w info.size || !MeetsMaximumSize w info.size then
      (false, none)
    else (true, none)
  else if IsDir info && !w.VisitDirs then (false, none)
  else if IsSymlink info && !w.VisitSymlinks then (false, none)
  else (true, none)

/-- Outcome of one backend metadata call, as the Go caller sees it: a
possibly-nil `os.FileInfo` and a possibly-nil error. -/
def StatOutcome : Type := Option FileInfo × Option GoErr

instance : DecidableEq StatOutcome := by
  unfold StatOutcome; infer_instance

/-- Everything the backend answers about one node during a walk: the
dereferencing `Stat` outcome, the non-dereferencing `Lstat` outcome, and
the error component of `ReadDir` when the walk enumerates the node's
children. -/
structure NodeMeta where
  statRes : StatOutcome
  lstatRes : StatOutcome
  readDirErr : Option GoErr
deriving DecidableEq

/-- Backend answers for an existing, error-free node of the given kind. -/
def NodeMeta.clean (kind : Kind) (size : Int) : NodeMeta :=
  { statRes := (some ⟨kind, size⟩, none)
    lstatRes := (some ⟨kind, size⟩, none)
    readDirErr := none }

/-- A directory tree as the walk engine observes it through the backend:
each node has a name (its final path component) and the backend's answers,
and a directory node has a list of children in the order `ReadDir`
enumerates them. -/
inductive FsTree where
  | node (name : String) (meta : NodeMeta) (children : List FsTree)

/-- Name of the root node of a tree. -/
def FsTree.name : FsTree → String
  | FsTree.node n _ _ => n

/-- Backend answers for the root node of a tree. -/
def FsTree.meta : FsTree → NodeMeta
  | FsTree.node _ m _ => m

/-- Children of the root node of a tree. -/
def FsTree.children : FsTree → List FsTree
  | FsTree.node _ _ cs => cs

/-- Convenience constructor: a regular file with a clean backend. -/
def fsFile (name : String) (size : Int) : FsTree :=
  FsTree.node name (NodeMeta.clean Kind.file size) []

/-- Convenience constructor: a directory with a clean backend. -/
def fsDir (name : String) (children : List FsTree) : FsTree :=
  FsTree.node name (NodeMeta.clean Kind.dir 0) children

/-- A path is its list of slash-separated components. -/
def GoPath : Type := List String

instance : DecidableEq GoPath := by
  unfold GoPath; infer_instance

instance : Append GoPath := by
  unfold GoPath; infer_instance

/-- One visitor invocation: the arguments `walkFn` was called with. -/
structure Visit where
  path : List String
  info : FileInfo
  err : Option GoErr
deriving DecidableEq, Repr

/-- The visitor type `WalkFunc` of `walk.go`, as a pure function. -/
def WalkFn : Type := List String → FileInfo → Option GoErr → Option GoErr

/-- Per-child discovery step of `iterateImmediateChildren` in `walk.go`:
obtain metadata by `Stat` when `FollowSymlinks` is set (an error returns
immediately) or by `Lstat` otherwise (the error is kept and handed on),
then translate absent metadata with no error into `ErrInfoIsNil`.
`Sum.inl` is an abort of the enumeration; `Sum.inr` carries the `info`
and the `encounteredErr` passed to the algorithm callback. -/
def childDiscovery (w : WalkOpts) (m : NodeMeta) : Sum GoErr (FileInfo × Option GoErr) :=
  if w.FollowSymlinks then
    match m.statRes with
    | (_, some e) => Sum.inl e
    | (none, none) => Sum.inl GoErr.infoIsNil
    | (some info, none) => Sum.inr (info, none)
  else
    match m.lstatRes with
    | (none, some e) => Sum.inl e
    | (none, none) => Sum.inl GoErr.infoIsNil
    | (some info, err) => Sum.inr (info, err)

mutual

/-- The method `walkBasic` of `walk.go`, with the enumeration of
`iterateImmediateChildren` and the algorithm callback inlined (the Go code
passes the callback as a closure to `iterateImmediateChildren`; the
composition is embedded directly).  Returns the visitor-invocation trace
and the error returned to the caller. -/
def walkBasic (w : WalkOpts) (f : WalkFn) (path : List String) (t : FsTree)
    (currentDepth : Int) : List Visit × Option GoErr :=
  match t with
  | FsTree.node _ m cs =>
    if maxDepthReached w currentDepth then ([], none)
    else
      match m.readDirErr with
      | some e => ([], some e)
      | none => walkBasicChildren w f path cs currentDepth

/-- Enumeration loop of `iterateImmediateChildren` specialized to the
`walkBasic` callback: left to right over the children, recursing into
directories before filtering and visiting the child itself. -/
def walkBasicChildren (w : WalkOpts) (f : WalkFn) (path : List String)
    (cs : List FsTree) (currentDepth : Int) : List Visit × Option GoErr :=
  match cs with
  | [] => ([], none)
  | c :: rest =>
    let childPath := path ++ [c.name]
    if childPath = path then walkBasicChildren w f path rest currentDepth
    else
      match childDiscovery w c.meta with
      | Sum.inl e => ([], some e)
      | Sum.inr (info, encounteredErr) =>
        let sub : List Visit × Option GoErr :=
          if IsDir info then walkBasic w f childPath c (currentDepth + 1)
          else ([], none)
        match sub.2 with
        | some e => (sub.1, some e)
        | none =>
          match passesQuerySpecification w info with
          | (_, some e) => (sub.1, some e)
          | (passes, none) =>
            if passes then
              match f childPath info encounteredErr with
              | some e => (sub.1 ++ [⟨childPath, info, encounteredErr⟩], some e)
              | none =>
                let next := walkBasicChildren w f path rest currentDepth
                (sub.1 ++ ⟨childPath, info, encounteredErr⟩ :: next.1, next.2)
            else
              let next := walkBasicChildren w f path rest currentDepth
              (sub.1 ++ next.1, next.2)

end

/-- Second phase of `walkDFS`: iterate over the buffered children after all
subdirectories have been recursed, filtering each and handing the admitted
ones to the visitor. -/
def walkDFSVisit (w : WalkOpts) (f : WalkFn) : List Visit → List Visit × Option GoErr
  | [] => ([], none)
  | b :: rest =>
    match passesQuerySpecification w b.info with
    | (_, some e) => ([], some e)
    | (passes, none) =>
      if passes then
        match f b.path b.info b.err with
        | some e => ([b], some e)
        | none =>
          let next := walkDFSVisit w f rest
          (b :: next.1, next.2)
      else walkDFSVisit w f rest

mutual

/-- The method `walkDFS` of `walk.go` (post-order depth-first): discover
all immediate children while recursing into directory children, then
filter and visit the buffered children in discovery order. -/
def walkDFS (w : WalkOpts) (f : WalkFn) (path : List String) (t : FsTree)
    (currentDepth : Int) : List Visit × Option GoErr :=
  match t with
  | FsTree.node _ m cs =>
    if maxDepthReached w currentDepth then ([], none)
    else
      match m.readDirErr with
      | some e => ([], some e)
      | none =>
        match walkDFSChildren w f path cs currentDepth with
        | (trace, _, some e) => (trace, some e)
        | (trace, buffered, none) =>
          let second := walkDFSVisit w f buffered
          (trace ++ second.1, second.2)

/-- Enumeration loop of `iterateImmediateChildren` specialized to the
`walkDFS` callback: recurse into directory children, and buffer every
child (as `dfsObjectInfo`) for the deferred visiting phase.  Returns the
trace of visits made during recursion, the buffer, and the error. -/
def walkDFSChildren (w : WalkOpts) (f : WalkFn) (path : List String)
    (cs : List FsTree) (currentDepth : Int) :
    List Visit × List Visit × Option GoErr :=
  match cs with
  | [] => ([], [], none)
  | c :: rest =>
    let childPath := path ++ [c.name]
    if childPath = path then walkDFSChildren w f path rest currentDepth
    else
      match childDiscovery w c.meta with
      | Sum.inl e => ([], [], some e)
      | Sum.inr (info, encounteredErr) =>
        let sub : List Visit × Option GoErr :=
          if IsDir info then walkDFS w f childPath c (currentDepth + 1)
          else ([], none)
        match sub.2 with
        | some e => (sub.1, [], some e)
        | none =>
          match walkDFSChildren w f path rest currentDepth with
          | (trace, buffered, r) =>
            (sub.1 ++ trace, ⟨childPath, info, encounteredErr⟩ :: buffered, r)

end

/-- The method `Walk` of `walk.go`: dispatch on the algorithm selector and
swallow the `ErrStopWalk` sentinel.  The receiver struct `Walk` carries
`Opts` and `root`; they are passed explicitly, the root as its path
together with the tree of backend answers below it. -/
def WalkWalk (w : WalkOpts) (f : WalkFn) (rootPath : List String) (root : FsTree) :
    List Visit × Option GoErr :=
  if w.Algorithm = AlgorithmBasic then
    let r := walkBasic w f rootPath root 0
    match r.2 with
    | some e => if e = GoErr.stopWalk then (r.1, none) else r
    | none => r
  else if w.Algorithm = AlgorithmDepthFirst then
    let r := walkDFS w f rootPath root 0
    match r.2 with
    | some e => if e = GoErr.stopWalk then (r.1, none) else r
    | none => r
  else ([], some GoErr.invalidAlgorithm)

/-- The visitor that always tells the engine to continue (returns `nil`). -/
def nilVisitor : WalkFn := fun _ _ _ => none

/-- Backend answers for a node are clean: metadata is present with no error
and enumerating the children succeeds. -/
def nodeMetaClean (m : NodeMeta) : Bool :=
  match m.statRes, m.lstatRes, m.readDirErr with
  | (some _, none), (some _, none), none => true
  | _, _, _ => false

mutual

/-- A tree is wellformed: every backend answer is clean and the children of
each directory have pairwise distinct names (as on a real filesystem). -/
def FsTree.wf : FsTree → Bool
  | FsTree.node _ m cs => nodeMetaClean m && FsTree.wfList cs

/-- Forest version of `FsTree.wf`. -/
def FsTree.wfList : List FsTree → Bool
  | [] => true
  | c :: rest =>
    FsTree.wf c && FsTree.wfList rest && !((rest.map FsTree.name).contains c.name)

end

mutual

/-- Mutual induction over a tree and the forests inside it. -/
theorem FsTree.indTree {P : FsTree → Prop} {Q : List FsTree → Prop}
    (hnode : ∀ n m cs, Q cs → P (FsTree.node n m cs))
    (hnil : Q [])
    (hcons : ∀ c rest, P c → Q rest → Q (c :: rest)) :
    ∀ t, P t
  | FsTree.node n m cs => hnode n m cs (FsTree.indForest hnode hnil hcons cs)

/-- Forest part of the mutual induction over trees. -/
theorem FsTree.indForest {P : FsTree → Prop} {Q : List FsTree → Prop}
    (hnode : ∀ n m cs, Q cs → P (FsTree.node n m cs))
    (hnil : Q [])
    (hcons : ∀ c rest, P c → Q rest → Q (c :: rest)) :
    ∀ cs, Q cs
  | [] => hnil
  | c :: rest =>
    hcons c rest (FsTree.indTree hnode hnil hcons c)
      (FsTree.indForest hnode hnil hcons rest)

end

/-- The metadata the engine classifies a child by: the `Stat` answer when
symlinks are followed, the `Lstat` answer otherwise. -/
def infoOf (w : WalkOpts) (m : NodeMeta) : Option FileInfo :=
  if w.FollowSymlinks then m.statRes.1 else m.lstatRes.1

/-- The walk recurses into this child (it is classified as a directory). -/
def isDirChild (w : WalkOpts) (c : FsTree) : Bool :=
  match infoOf w c.meta with
  | some i => IsDir i
  | none => false

/-- The visit the engine buffers for this child during post-order
discovery (empty when metadata is absent). -/
def bufferedChild (w : WalkOpts) (p : List String) (c : FsTree) : List Visit :=
  match infoOf w c.meta with
  | some i => [⟨p ++ [c.name], i, none⟩]
  | none => []

/-- The visit the engine performs for this child when it passes the query
filter (empty otherwise). -/
def admittedChild (w : WalkOpts) (p : List String) (c : FsTree) : List Visit :=
  match infoOf w c.meta with
  | some i =>
    if (passesQuerySpecification w i).1 then [⟨p ++ [c.name], i, none⟩] else []
  | none => []

/-- Paths of a visitor-invocation trace. -/
def pathsOf (trace : List Visit) : List (List String) :=
  trace.map Visit.path

theorem passesQuerySpecification_snd (w : WalkOpts) (i : FileInfo) :
    (passesQuerySpecification w i).2 = none := by
  unfold passesQuerySpecification
  repeat' split
  all_goals rfl

theorem childDiscovery_clean (w : WalkOpts) (m : NodeMeta)
    (h : nodeMetaClean m = true) :
    ∃ i, childDiscovery w m = Sum.inr (i, none) ∧ infoOf w m = some i := by
  rcases m with ⟨⟨s1, s2⟩, ⟨l1, l2⟩, rd⟩
  unfold nodeMetaClean at h
  cases s1 <;> cases s2 <;> cases l1 <;> cases l2 <;> cases rd <;> simp_all
  by_cases hF : w.FollowSymlinks = true <;>
    simp [childDiscovery, infoOf, hF]

theorem childPath_ne (p : List String) (s : String) : ¬(p ++ [s] = p) := by
  intro h
  have h2 : p ++ [s] = p ++ ([] : List String) := by
    rw [List.append_nil]; exact h
  have := List.append_cancel_left h2
  simp at this

theorem nodeMetaClean_readDir (m : NodeMeta) (h : nodeMetaClean m = true) :
    m.readDirErr = none := by
  rcases m with ⟨⟨s1, s2⟩, ⟨l1, l2⟩, rd⟩
  unfold nodeMetaClean at h
  cases s1 <;> cases s2 <;> cases l1 <;> cases l2 <;> cases rd <;> simp_all

theorem wf_meta (c : FsTree) (h : FsTree.wf c = true) :
    nodeMetaClean c.meta = true := by
  cases c
  simp_all [FsTree.wf, FsTree.meta]

theorem wf_children (c : FsTree) (h : FsTree.wf c = true) :
    FsTree.wfList c.children = true := by
  cases c
  simp_all [FsTree.wf, FsTree.children]

/-- Shape of the trace produced below one child by the Basic algorithm. -/
def basicShape (w : WalkOpts) (f : WalkFn) (p : List String) (d : Int)
    (cs : List FsTree) : List Visit :=
  (cs.map fun c =>
    (if isDirChild w c then (walkBasic w f (p ++ [c.name]) c (d + 1)).1 else [])
      ++ admittedChild w p c).flatten

theorem walkBasic_clean_pair (w : WalkOpts) (f : WalkFn)
    (hf : ∀ a b c, f a b c = none) :
    (∀ t, FsTree.wf t = true → ∀ p d, walkBasic w f p t d =
      ((if maxDepthReached w d then [] else basicShape w f p d t.children), none)) ∧
    (∀ cs, FsTree.wfList cs = true → ∀ p d, walkBasicChildren w f p cs d =
      (basicShape w f p d cs, none)) := by
  refine ⟨FsTree.indTree ?hnode ?hnil ?hcons, FsTree.indForest ?hnode ?hnil ?hcons⟩
  case hnode =>
    intro n m cs hQ hwf p d
    have hm : nodeMetaClean m = true := wf_meta _ hwf
    have hcs : FsTree.wfList cs = true := wf_children (FsTree.node n m cs) hwf
    have hrd : m.readDirErr = none := nodeMetaClean_readDir m hm
    simp only [walkBasic, hrd, FsTree.children]
    split
    · rfl
    · exact hQ hcs p d
  case hnil =>
    intro _ p d
    simp [walkBasicChildren, basicShape]
  case hcons =>
    intro c rest hP hQ hwf p d
    have hwfc : FsTree.wf c = true := by
      simp [FsTree.wfList, Bool.and_eq_true] at hwf; exact hwf.1.1
    have hwfr : FsTree.wfList rest = true := by
      simp [FsTree.wfList, Bool.and_eq_true] at hwf; exact hwf.1.2
    obtain ⟨i, hdisc, hinfo⟩ := childDiscovery_clean w c.meta (wf_meta c hwfc)
    rcases hp : passesQuerySpecification w i with ⟨passes, perr⟩
    have hperr : perr = none := by
      have := passesQuerySpecification_snd w i
      rw [hp] at this; exact this
    subst hperr
    simp only [walkBasicChildren, hdisc]
    rw [if_neg (childPath_ne p c.name)]
    have hnext := hQ hwfr p d
    by_cases hdir : IsDir i = true
    · have hsub := hP hwfc (p ++ [c.name]) (d + 1)
      by_cases hpass : passes = true <;>
        simp_all [basicShape, isDirChild, admittedChild]
    · by_cases hpass : passes = true <;>
        simp_all [basicShape, isDirChild, admittedChild]

theorem walkBasic_clean (w : WalkOpts) (f : WalkFn)
    (hf : ∀ a b c, f a b c = none) (t : FsTree) (hwf : FsTree.wf t = true)
    (p : List String) (d : Int) :
    walkBasic w f p t d =
      ((if maxDepthReached w d then [] else basicShape w f p d t.children), none) :=
  (walkBasic_clean_pair w f hf).1 t hwf p d

theorem walkBasicChildren_clean (w : WalkOpts) (f : WalkFn)
    (hf : ∀ a b c, f a b c = none) (cs : List FsTree)
    (hwf : FsTree.wfList cs = true) (p : List String) (d : Int) :
    walkBasicChildren w f p cs d = (basicShape w f p d cs, none) :=
  (walkBasic_clean_pair w f hf).2 cs hwf p d

theorem walkDFSVisit_clean (w : WalkOpts) (f : WalkFn)
    (hf : ∀ a b c, f a b c = none) (buf : List Visit) :
    walkDFSVisit w f buf =
      (buf.filter (fun b => (passesQuerySpecification w b.info).1), none) := by
  induction buf with
  | nil => simp [walkDFSVisit]
  | cons b rest ih =>
    rcases hp : passesQuerySpecification w b.info with ⟨passes, perr⟩
    have hperr : perr = none := by
      have := passesQuerySpecification_snd w b.info
      rw [hp] at this; exact this
    subst hperr
    by_cases hpass : passes = true <;>
      simp [walkDFSVisit, hp, hpass, hf, ih, List.filter_cons]

/-- Shape of the subtree recursion part of the post-order trace. -/
def dfsSubShape (w : WalkOpts) (f : WalkFn) (p : List String) (d : Int)
    (cs : List FsTree) : List Visit :=
  (cs.map fun c =>
    if isDirChild w c then (walkDFS w f (p ++ [c.name]) c (d + 1)).1 else []).flatten

/-- Shape of the buffered sibling list of the post-order algorithm. -/
def dfsBufShape (w : WalkOpts) (p : List String) (cs : List FsTree) : List Visit :=
  (cs.map (bufferedChild w p)).flatten

/-- Shape of the deferred visiting phase of the post-order trace. -/
def dfsAdmittedShape (w : WalkOpts) (p : List String) (cs : List FsTree) : List Visit :=
  (cs.map (admittedChild w p)).flatten

theorem bufferedChild_filter (w : WalkOpts) (p : List String) (c : FsTree) :
    (bufferedChild w p c).filter (fun b => (passesQuerySpecification w b.info).1) =
      admittedChild w p c := by
  unfold bufferedChild admittedChild
  cases infoOf w c.meta with
  | none => rfl
  | some i => by_cases hp : (passesQuerySpecification w i).1 = true <;> simp [hp]

theorem dfsBufShape_filter (w : WalkOpts) (p : List String) (cs : List FsTree) :
    (dfsBufShape w p cs).filter (fun b => (passesQuerySpecification w b.info).1) =
      dfsAdmittedShape w p cs := by
  induction cs with
  | nil => rfl
  | cons c rest ih =>
    simp only [dfsBufShape, dfsAdmittedShape, List.map_cons, List.flatten_cons,
      List.filter_append] at *
    rw [ih, bufferedChild_filter]

theorem walkDFS_clean_pair (w : WalkOpts) (f : WalkFn)
    (hf : ∀ a b c, f a b c = none) :
    (∀ t, FsTree.wf t = true → ∀ p d, walkDFS w f p t d =
      ((if maxDepthReached w d then []
        else dfsSubShape w f p d t.children ++ dfsAdmittedShape w p t.children),
       none)) ∧
    (∀ cs, FsTree.wfList cs = true → ∀ p d, walkDFSChildren w f p cs d =
      (dfsSubShape w f p d cs, dfsBufShape w p cs, none)) := by
  refine ⟨FsTree.indTree ?hnode ?hnil ?hcons, FsTree.indForest ?hnode ?hnil ?hcons⟩
  case hnode =>
    intro n m cs hQ hwf p d
    have hm : nodeMetaClean m = true := wf_meta _ hwf
    have hcs : FsTree.wfList cs = true := wf_children (FsTree.node n m cs) hwf
    have hrd : m.readDirErr = none := nodeMetaClean_readDir m hm
    simp only [walkDFS, hrd, FsTree.children]
    split
    · rfl
    · rw [hQ hcs p d]
      simp [walkDFSVisit_clean w f hf, dfsBufShape_filter]
  case hnil =>
    intro _ p d
    simp [walkDFSChildren, dfsSubShape, dfsBufShape]
  case hcons =>
    intro c rest hP hQ hwf p d
    have hwfc : FsTree.wf c = true := by
      simp [FsTree.wfList, Bool.and_eq_true] at hwf; exact hwf.1.1
    have hwfr : FsTree.wfList rest = true := by
      simp [FsTree.wfList, Bool.and_eq_true] at hwf; exact hwf.1.2
    obtain ⟨i, hdisc, hinfo⟩ := childDiscovery_clean w c.meta (wf_meta c hwfc)
    simp only [walkDFSChildren, hdisc]
    rw [if_neg (childPath_ne p c.name)]
    have hnext := hQ hwfr p d
    by_cases hdir : IsDir i = true
    · have hsub := hP hwfc (p ++ [c.name]) (d + 1)
      simp_all [dfsSubShape, dfsBufShape, isDirChild, bufferedChild]
    · simp_all [dfsSubShape, dfsBufShape, isDirChild, bufferedChild]

theorem walkDFS_clean (w : WalkOpts) (f : WalkFn)
    (hf : ∀ a b c, f a b c = none) (t : FsTree) (hwf : FsTree.wf t = true)
    (p : List String) (d : Int) :
    walkDFS w f p t d =
      ((if maxDepthReached w d then []
        else dfsSubShape w f p d t.children ++ dfsAdmittedShape w p t.children),
       none) :=
  (walkDFS_clean_pair w f hf).1 t hwf p d

theorem wfList_mem {cs : List FsTree} {c : FsTree}
    (hwf : FsTree.wfList cs = true) (hc : c ∈ cs) : FsTree.wf c = true := by
  induction cs with
  | nil => cases hc
  | cons a rest ih =>
    simp [FsTree.wfList, Bool.and_eq_true] at hwf
    rcases List.mem_cons.mp hc with h | h
    · subst h; exact hwf.1.1
    · exact ih hwf.1.2 h

theorem flatten_interleave_perm {α β : Type} (A A2 B : α → List β) :
    ∀ cs : List α, (∀ c ∈ cs, (A c).Perm (A2 c)) →
      ((cs.map fun c => A c ++ B c).flatten).Perm
        ((cs.map A2).flatten ++ (cs.map B).flatten) := by
  intro cs
  induction cs with
  | nil => simp
  | cons c rest ih =>
    intro h
    simp only [List.map_cons, List.flatten_cons]
    have h1 : (A c).Perm (A2 c) := h c (by simp)
    have h2 := ih (fun x hx => h x (by simp [hx]))
    refine ((h1.append (List.Perm.refl (B c))).append h2).trans ?_
    simp only [List.append_assoc]
    exact List.Perm.append_left (A2 c) (List.perm_append_comm_assoc _ _ _)

theorem basic_dfs_perm_pair (w : WalkOpts) :
    (∀ t, FsTree.wf t = true → ∀ p d,
      ((walkBasic w nilVisitor p t d).1).Perm ((walkDFS w nilVisitor p t d).1)) ∧
    (∀ cs : List FsTree, ∀ c ∈ cs, FsTree.wf c = true → ∀ p d,
      ((walkBasic w nilVisitor p c d).1).Perm ((walkDFS w nilVisitor p c d).1)) := by
  have hf : ∀ a b c, nilVisitor a b c = none := fun _ _ _ => rfl
  refine ⟨FsTree.indTree
      (Q := fun cs => ∀ c ∈ cs, FsTree.wf c = true → ∀ p d,
        ((walkBasic w nilVisitor p c d).1).Perm ((walkDFS w nilVisitor p c d).1))
      ?hnode ?hnil ?hcons,
    FsTree.indForest
      (P := fun t => FsTree.wf t = true → ∀ p d,
        ((walkBasic w nilVisitor p t d).1).Perm ((walkDFS w nilVisitor p t d).1))
      ?hnode ?hnil ?hcons⟩
  case hnode =>
    intro n m cs hQ hwf p d
    rw [walkBasic_clean w nilVisitor hf _ hwf p d,
      walkDFS_clean w nilVisitor hf _ hwf p d]
    by_cases hdepth : maxDepthReached w d = true
    · simp [hdepth]
    · simp only [hdepth, if_false, FsTree.children, Bool.false_eq_true]
      unfold basicShape dfsSubShape dfsAdmittedShape
      refine flatten_interleave_perm _ _ (admittedChild w p) cs ?_
      intro c hc
      by_cases hdir : isDirChild w c = true
      · simp only [hdir, if_true]
        exact hQ c hc (wfList_mem (wf_children (FsTree.node n m cs) hwf) hc)
          (p ++ [c.name]) (d + 1)
      · simp [hdir]
  case hnil =>
    intro c hc
    cases hc
  case hcons =>
    intro c rest hP hQ c2 hc2 hwf p d
    rcases List.mem_cons.mp hc2 with h | h
    · subst h; exact hP hwf p d
    · exact hQ c2 h hwf p d

theorem admittedChild_paths (w : WalkOpts) (p : List String) (c : FsTree) :
    ∀ q ∈ pathsOf (admittedChild w p c), q = p ++ [c.name] := by
  intro q hq
  unfold admittedChild pathsOf at hq
  rcases hi : infoOf w c.meta with _ | i <;> rw [hi] at hq
  · simp at hq
  · by_cases hp : (passesQuerySpecification w i).1 = true <;> simp [hp] at hq
    exact hq

theorem admittedChild_nodup (w : WalkOpts) (p : List String) (c : FsTree) :
    (pathsOf (admittedChild w p c)).Nodup := by
  unfold admittedChild pathsOf
  rcases infoOf w c.meta with _ | i
  · simp
  · by_cases hp : (passesQuerySpecification w i).1 = true <;> simp [hp]

theorem append_cons_form (p : List String) (a : String) (s : List String) :
    (p ++ [a]) ++ s = p ++ a :: s := by simp

theorem append_cons_inj {p s s2 : List String} {a b : String}
    (h : p ++ a :: s = p ++ b :: s2) : a = b := by
  have h2 := List.append_cancel_left h
  injection h2

theorem basic_nodup_pair (w : WalkOpts) :
    (∀ t, FsTree.wf t = true → ∀ p d,
      (pathsOf (walkBasic w nilVisitor p t d).1).Nodup ∧
      ∀ q ∈ pathsOf (walkBasic w nilVisitor p t d).1, ∃ s, q = p ++ s ∧ s ≠ []) ∧
    (∀ cs : List FsTree, FsTree.wfList cs = true → ∀ p d,
      (pathsOf (basicShape w nilVisitor p d cs)).Nodup ∧
      ∀ q ∈ pathsOf (basicShape w nilVisitor p d cs),
        ∃ c ∈ cs, ∃ s, q = p ++ c.name :: s) := by
  have hf : ∀ a b c, nilVisitor a b c = none := fun _ _ _ => rfl
  refine ⟨FsTree.indTree
      (Q := fun cs => FsTree.wfList cs = true → ∀ p d,
        (pathsOf (basicShape w nilVisitor p d cs)).Nodup ∧
        ∀ q ∈ pathsOf (basicShape w nilVisitor p d cs),
          ∃ c ∈ cs, ∃ s, q = p ++ c.name :: s)
      ?hnode ?hnil ?hcons,
    FsTree.indForest
      (P := fun t => FsTree.wf t = true → ∀ p d,
        (pathsOf (walkBasic w nilVisitor p t d).1).Nodup ∧
        ∀ q ∈ pathsOf (walkBasic w nilVisitor p t d).1, ∃ s, q = p ++ s ∧ s ≠ [])
      ?hnode ?hnil ?hcons⟩
  case hnode =>
    intro n m cs hQ hwf p d
    rw [walkBasic_clean w nilVisitor hf _ hwf p d]
    by_cases hdepth : maxDepthReached w d = true
    · simp [hdepth, pathsOf]
    · simp only [hdepth, if_false, FsTree.children, Bool.false_eq_true]
      obtain ⟨h1, h2⟩ := hQ (wf_children (FsTree.node n m cs) hwf) p d
      refine ⟨h1, ?_⟩
      intro q hq
      obtain ⟨c, _, s, hs⟩ := h2 q hq
      exact ⟨c.name :: s, hs, by simp⟩
  case hnil =>
    intro _ p d
    simp [basicShape, pathsOf]
  case hcons =>
    intro c rest hP hQ hwf p d
    have hwfc : FsTree.wf c = true := by
      simp [FsTree.wfList, Bool.and_eq_true] at hwf; exact hwf.1.1
    have hwfr : FsTree.wfList rest = true := by
      simp [FsTree.wfList, Bool.and_eq_true] at hwf; exact hwf.1.2
    have hname : ∀ c2 ∈ rest, ¬(c2.name = c.name) := by
      simp [FsTree.wfList, Bool.and_eq_true] at hwf
      exact hwf.2
    obtain ⟨hrN, hrM⟩ := hQ hwfr p d
    have hshape : basicShape w nilVisitor p d (c :: rest) =
        ((if isDirChild w c then (walkBasic w nilVisitor (p ++ [c.name]) c (d + 1)).1
          else []) ++ admittedChild w p c) ++ basicShape w nilVisitor p d rest := by
      simp [basicShape]
    rw [hshape]
    have hsubN : (pathsOf (if isDirChild w c then
        (walkBasic w nilVisitor (p ++ [c.name]) c (d + 1)).1 else [])).Nodup := by
      split
      · exact (hP hwfc (p ++ [c.name]) (d + 1)).1
      · simp [pathsOf]
    have hsubM : ∀ q ∈ pathsOf (if isDirChild w c then
        (walkBasic w nilVisitor (p ++ [c.name]) c (d + 1)).1 else []),
        ∃ s, q = p ++ c.name :: s ∧ s ≠ [] := by
      intro q hq
      split at hq
      · obtain ⟨s, hs, hne⟩ := (hP hwfc (p ++ [c.name]) (d + 1)).2 q hq
        exact ⟨s, by rw [hs, append_cons_form], hne⟩
      · simp [pathsOf] at hq
    have hPathsApp : ∀ a b : List Visit, pathsOf (a ++ b) = pathsOf a ++ pathsOf b := by
      intro a b; simp [pathsOf]
    rw [hPathsApp, hPathsApp]
    have hcMem : ∀ q ∈ pathsOf ((if isDirChild w c then
        (walkBasic w nilVisitor (p ++ [c.name]) c (d + 1)).1 else []) ++
        admittedChild w p c), ∃ s, q = p ++ c.name :: s := by
      intro q hq
      rw [hPathsApp] at hq
      rcases List.mem_append.mp hq with h | h
      · obtain ⟨s, hs, _⟩ := hsubM q h
        exact ⟨s, hs⟩
      · exact ⟨[], by rw [admittedChild_paths w p c q h]⟩
    constructor
    · rw [List.nodup_append]
      refine ⟨?_, hrN, ?_⟩
      · rw [List.nodup_append]
        refine ⟨hsubN, admittedChild_nodup w p c, ?_⟩
        intro q hq hq2
        obtain ⟨s, hs, hne⟩ := hsubM q hq
        have ha := admittedChild_paths w p c q hq2
        rw [ha] at hs
        have h2 := List.append_cancel_left
          (hs.symm.trans (congrArg (p ++ ·) rfl) : p ++ c.name :: s = p ++ [c.name])
        injection h2 with _ htl
        exact hne htl
      · intro q hq hq2
        rw [← hPathsApp] at hq
        obtain ⟨s, hs⟩ := hcMem q hq
        obtain ⟨c2, hc2, s2, hs2⟩ := hrM q hq2
        rw [hs] at hs2
        exact hname c2 hc2 (append_cons_inj hs2).symm
    · intro q hq
      rcases List.mem_append.mp hq with hq | hq
      · rcases List.mem_append.mp hq with hq | hq
        · obtain ⟨s, hs, _⟩ := hsubM q hq
          exact ⟨c, List.mem_cons_self c rest, s, hs⟩
        · exact ⟨c, List.mem_cons_self c rest, [],
            by rw [admittedChild_paths w p c q hq]⟩
      · obtain ⟨c2, hc2, s2, hs2⟩ := hrM q hq
        exact ⟨c2, List.mem_cons_of_mem c hc2, s2, hs2⟩

theorem maxDepth_false {w : WalkOpts} {d : Int} (hD : 0 ≤ w.Depth)
    (h : maxDepthReached w d = false) : d ≤ w.Depth := by
  unfold maxDepthReached at h
  by_cases hgt : d > w.Depth
  · rw [if_pos ⟨by omega, hgt⟩] at h
    cases h
  · omega

theorem walkDFSVisit_mem (w : WalkOpts) (f : WalkFn) :
    ∀ buf, ∀ v ∈ (walkDFSVisit w f buf).1, v ∈ buf := by
  intro buf
  induction buf with
  | nil => intro v hv; simp [walkDFSVisit] at hv
  | cons b rest ih =>
    intro v hv
    rcases hp : passesQuerySpecification w b.info with ⟨passes, perr⟩
    have hperr : perr = none := by
      have := passesQuerySpecification_snd w b.info
      rw [hp] at this; exact this
    subst hperr
    simp only [walkDFSVisit, hp] at hv
    split at hv
    · split at hv
      · simp at hv
        simp [hv]
      · rcases List.mem_cons.mp hv with h | h
        · simp [h]
        · exact List.mem_cons_of_mem b (ih v h)
    · exact List.mem_cons_of_mem b (ih v hv)

theorem walkBasic_depth_pair (w : WalkOpts) (f : WalkFn) (hD : 0 ≤ w.Depth) :
    (∀ t, ∀ p : List String, ∀ d, ∀ v ∈ (walkBasic w f p t d).1,
      (v.path.length : Int) ≤ p.length + (w.Depth - d) + 1) ∧
    (∀ cs : List FsTree, ∀ p : List String, ∀ d, d ≤ w.Depth →
      ∀ v ∈ (walkBasicChildren w f p cs d).1,
      (v.path.length : Int) ≤ p.length + (w.Depth - d) + 1) := by
  refine ⟨FsTree.indTree
      (Q := fun cs => ∀ p : List String, ∀ d, d ≤ w.Depth →
        ∀ v ∈ (walkBasicChildren w f p cs d).1,
        (v.path.length : Int) ≤ p.length + (w.Depth - d) + 1)
      ?hnode ?hnil ?hcons,
    FsTree.indForest
      (P := fun t => ∀ p : List String, ∀ d, ∀ v ∈ (walkBasic w f p t d).1,
        (v.path.length : Int) ≤ p.length + (w.Depth - d) + 1)
      ?hnode ?hnil ?hcons⟩
  case hnode =>
    intro n m cs hQ p d v hv
    simp only [walkBasic] at hv
    rcases hdepth : maxDepthReached w d with _ | _
    · rw [hdepth] at hv
      simp only [Bool.false_eq_true, if_false] at hv
      rcases hrd : m.readDirErr with _ | e <;> rw [hrd] at hv
      · exact hQ p d (maxDepth_false hD hdepth) v hv
      · simp at hv
    · rw [hdepth] at hv
      simp at hv
  case hnil =>
    intro p d _ v hv
    simp [walkBasicChildren] at hv
  case hcons =>
    intro c rest hP hQ p d hd v hv
    rcases hdisc : childDiscovery w c.meta with e | ⟨info, encErr⟩ <;>
      simp only [walkBasicChildren, hdisc] at hv <;>
      rw [if_neg (childPath_ne p c.name)] at hv
    · simp at hv
    · have hsub : ∀ v2 ∈ (if IsDir info = true then
          walkBasic w f (p ++ [c.name]) c (d + 1) else ([], none)).1,
          (v2.path.length : Int) ≤ p.length + (w.Depth - d) + 1 := by
        intro v2 hv2
        split at hv2
        · have := hP (p ++ [c.name]) (d + 1) v2 hv2
          have hlen : ((p ++ [c.name]).length : Int) = p.length + 1 := by
            simp
          omega
        · simp at hv2
      have hvlen : ∀ err2 : Option GoErr,
          v = ⟨p ++ [c.name], info, err2⟩ →
          (v.path.length : Int) ≤ p.length + (w.Depth - d) + 1 := by
        intro err2 hveq
        rw [hveq]
        simp only [List.length_append, List.length_cons, List.length_nil]
        push_cast
        omega
      split at hv
      · exact hsub v hv
      · split at hv
        · exact hsub v hv
        · split at hv
          · split at hv
            · rcases List.mem_append.mp hv with h | h
              · exact hsub v h
              · exact hvlen _ (by simpa using h)
            · rcases List.mem_append.mp hv with h | h
              · exact hsub v h
              · rcases List.mem_cons.mp h with h2 | h2
                · exact hvlen _ h2
                · exact hQ p d hd v h2
          · rcases List.mem_append.mp hv with h | h
            · exact hsub v h
            · exact hQ p d hd v h

theorem walkDFS_depth_pair (w : WalkOpts) (f : WalkFn) (hD : 0 ≤ w.Depth) :
    (∀ t, ∀ p : List String, ∀ d, ∀ v ∈ (walkDFS w f p t d).1,
      (v.path.length : Int) ≤ p.length + (w.Depth - d) + 1) ∧
    (∀ cs : List FsTree, ∀ p : List String, ∀ d, d ≤ w.Depth →
      (∀ v ∈ (walkDFSChildren w f p cs d).1,
        (v.path.length : Int) ≤ p.length + (w.Depth - d) + 1) ∧
      (∀ b ∈ (walkDFSChildren w f p cs d).2.1,
        (b.path.length : Int) ≤ p.length + (w.Depth - d) + 1)) := by
  refine ⟨FsTree.indTree
      (Q := fun cs => ∀ p : List String, ∀ d, d ≤ w.Depth →
        (∀ v ∈ (walkDFSChildren w f p cs d).1,
          (v.path.length : Int) ≤ p.length + (w.Depth - d) + 1) ∧
        (∀ b ∈ (walkDFSChildren w f p cs d).2.1,
          (b.path.length : Int) ≤ p.length + (w.Depth - d) + 1))
      ?hnode ?hnil ?hcons,
    FsTree.indForest
      (P := fun t => ∀ p : List String, ∀ d, ∀ v ∈ (walkDFS w f p t d).1,
        (v.path.length : Int) ≤ p.length + (w.Depth - d) + 1)
      ?hnode ?hnil ?hcons⟩
  case hnode =>
    intro n m cs hQ p d v hv
    rcases hdepth : maxDepthReached w d with _ | _
    · have hd : d ≤ w.Depth := maxDepth_false hD hdepth
      rcases hrd : m.readDirErr with _ | e
      · rcases hch : walkDFSChildren w f p cs d with ⟨trace, buffered, r⟩
        have hQ1 : ∀ v2 ∈ trace,
            (v2.path.length : Int) ≤ p.length + (w.Depth - d) + 1 := by
          have := (hQ p d hd).1; rw [hch] at this; exact this
        have hQ2 : ∀ b ∈ buffered,
            (b.path.length : Int) ≤ p.length + (w.Depth - d) + 1 := by
          have := (hQ p d hd).2; rw [hch] at this; exact this
        rcases r with _ | e
        · simp only [walkDFS, hdepth, Bool.false_eq_true, if_false, hrd, hch] at hv
          rcases List.mem_append.mp hv with h | h
          · exact hQ1 v h
          · exact hQ2 v (walkDFSVisit_mem w f buffered v h)
        · simp only [walkDFS, hdepth, Bool.false_eq_true, if_false, hrd, hch] at hv
          exact hQ1 v hv
      · simp only [walkDFS, hdepth, Bool.false_eq_true, if_false, hrd] at hv
        simp at hv
    · simp only [walkDFS, hdepth, if_true] at hv
      simp at hv
  case hnil =>
    intro p d _
    constructor <;> intro v hv <;> simp [walkDFSChildren] at hv
  case hcons =>
    intro c rest hP hQ p d hd
    have hne : ¬(p ++ [c.name] = p) := childPath_ne p c.name
    rcases hdisc : childDiscovery w c.meta with e | ⟨info, encErr⟩
    · constructor <;> intro v hv <;>
        simp [walkDFSChildren, hdisc, hne] at hv
    · rcases hrest : walkDFSChildren w f p rest d with ⟨traceR, bufferedR, r⟩
      have hQ1 : ∀ v2 ∈ traceR,
          (v2.path.length : Int) ≤ p.length + (w.Depth - d) + 1 := by
        have := (hQ p d hd).1; rw [hrest] at this; exact this
      have hQ2 : ∀ b ∈ bufferedR,
          (b.path.length : Int) ≤ p.length + (w.Depth - d) + 1 := by
        have := (hQ p d hd).2; rw [hrest] at this; exact this
      have hsub : ∀ v2 ∈ (if IsDir info = true then
          walkDFS w f (p ++ [c.name]) c (d + 1) else ([], none)).1,
          (v2.path.length : Int) ≤ p.length + (w.Depth - d) + 1 := by
        intro v2 hv2
        split at hv2
        · have := hP (p ++ [c.name]) (d + 1) v2 hv2
          have hlen : ((p ++ [c.name]).length : Int) = p.length + 1 := by simp
          omega
        · simp at hv2
      constructor <;> intro v hv <;>
        simp only [walkDFSChildren, hdisc, hrest] at hv <;>
        rw [if_neg hne] at hv
      · split at hv
        · exact hsub v hv
        · rcases List.mem_append.mp hv with h | h
          · exact hsub v h
          · exact hQ1 v h
      · split at hv
        · simp at hv
        · rcases List.mem_cons.mp hv with h | h
          · rw [h]
            simp only [List.length_append, List.length_cons, List.length_nil]
            push_cast
            omega
          · exact hQ2 v h

theorem walkDFSVisit_stop (w : WalkOpts) (f : WalkFn)
    (hf : ∀ a b c, f a b c = some GoErr.stopWalk) (buf : List Visit) :
    (walkDFSVisit w f buf).1.length ≤ 1 ∧
    ((walkDFSVisit w f buf).1 ≠ [] →
      (walkDFSVisit w f buf).2 = some GoErr.stopWalk) := by
  induction buf with
  | nil => simp [walkDFSVisit]
  | cons b rest ih =>
    rcases hp : passesQuerySpecification w b.info with ⟨passes, perr⟩
    have hperr : perr = none := by
      have := passesQuerySpecification_snd w b.info
      rw [hp] at this; exact this
    subst hperr
    by_cases hpass : passes = true <;>
      simp only [walkDFSVisit, hp, hpass, hf, if_true, Bool.false_eq_true, if_false]
    · simp
    · exact ih

theorem walkBasic_stop_pair (w : WalkOpts) (f : WalkFn)
    (hf : ∀ a b c, f a b c = some GoErr.stopWalk) :
    (∀ t, ∀ p : List String, ∀ d,
      (walkBasic w f p t d).1.length ≤ 1 ∧
      ((walkBasic w f p t d).1 ≠ [] →
        (walkBasic w f p t d).2 = some GoErr.stopWalk)) ∧
    (∀ cs : List FsTree, ∀ p : List String, ∀ d,
      (walkBasicChildren w f p cs d).1.length ≤ 1 ∧
      ((walkBasicChildren w f p cs d).1 ≠ [] →
        (walkBasicChildren w f p cs d).2 = some GoErr.stopWalk)) := by
  refine ⟨FsTree.indTree
      (Q := fun cs => ∀ p : List String, ∀ d,
        (walkBasicChildren w f p cs d).1.length ≤ 1 ∧
        ((walkBasicChildren w f p cs d).1 ≠ [] →
          (walkBasicChildren w f p cs d).2 = some GoErr.stopWalk))
      ?hnode ?hnil ?hcons,
    FsTree.indForest
      (P := fun t => ∀ p : List String, ∀ d,
        (walkBasic w f p t d).1.length ≤ 1 ∧
        ((walkBasic w f p t d).1 ≠ [] →
          (walkBasic w f p t d).2 = some GoErr.stopWalk))
      ?hnode ?hnil ?hcons⟩
  case hnode =>
    intro n m cs hQ p d
    rcases hdepth : maxDepthReached w d with _ | _ <;>
      rcases hrd : m.readDirErr with _ | e <;>
        simp only [walkBasic, hdepth, Bool.false_eq_true, if_false, if_true, hrd]
    · exact hQ p d
    · simp
    · simp
    · simp
  case hnil =>
    intro p d
    simp [walkBasicChildren]
  case hcons =>
    intro c rest hP hQ p d
    rcases hdisc : childDiscovery w c.meta with e | ⟨info, encErr⟩ <;>
      simp only [walkBasicChildren, hdisc] <;>
      rw [if_neg (childPath_ne p c.name)]
    · simp
    · have hsubLen : (if IsDir info = true then
          walkBasic w f (p ++ [c.name]) c (d + 1) else ([], none)).1.length ≤ 1 := by
        split
        · exact (hP (p ++ [c.name]) (d + 1)).1
        · simp
      have hsubStop : (if IsDir info = true then
          walkBasic w f (p ++ [c.name]) c (d + 1) else ([], none)).1 ≠ [] →
          (if IsDir info = true then
          walkBasic w f (p ++ [c.name]) c (d + 1) else ([], none)).2 =
            some GoErr.stopWalk := by
        split
        · exact (hP (p ++ [c.name]) (d + 1)).2
        · simp
      split
      · rename_i e2 hserr
        constructor
        · exact hsubLen
        · intro hne
          have := hsubStop hne
          rw [hserr] at this
          injection this with h2
          rw [h2]
      · rename_i hserr
        have hempty : (if IsDir info = true then
            walkBasic w f (p ++ [c.name]) c (d + 1) else ([], none)).1 = [] := by
          by_contra hne
          have := hsubStop hne
          rw [hserr] at this
          cases this
        rcases hpq : passesQuerySpecification w info with ⟨passes, perr⟩
        have hperr : perr = none := by
          have := passesQuerySpecification_snd w info
          rw [hpq] at this; exact this
        subst hperr
        simp only
        by_cases hpass : passes = true <;>
          simp only [hpass, Bool.false_eq_true, if_true, if_false, hf, hempty]
        · simp
        · simpa using hQ p d

theorem walkDFS_stop_pair (w : WalkOpts) (f : WalkFn)
    (hf : ∀ a b c, f a b c = some GoErr.stopWalk) :
    (∀ t, ∀ p : List String, ∀ d,
      (walkDFS w f p t d).1.length ≤ 1 ∧
      ((walkDFS w f p t d).1 ≠ [] →
        (walkDFS w f p t d).2 = some GoErr.stopWalk)) ∧
    (∀ cs : List FsTree, ∀ p : List String, ∀ d,
      (walkDFSChildren w f p cs d).1.length ≤ 1 ∧
      ((walkDFSChildren w f p cs d).1 ≠ [] →
        (walkDFSChildren w f p cs d).2.2 = some GoErr.stopWalk)) := by
  refine ⟨FsTree.indTree
      (Q := fun cs => ∀ p : List String, ∀ d,
        (walkDFSChildren w f p cs d).1.length ≤ 1 ∧
        ((walkDFSChildren w f p cs d).1 ≠ [] →
          (walkDFSChildren w f p cs d).2.2 = some GoErr.stopWalk))
      ?hnode ?hnil ?hcons,
    FsTree.indForest
      (P := fun t => ∀ p : List String, ∀ d,
        (walkDFS w f p t d).1.length ≤ 1 ∧
        ((walkDFS w f p t d).1 ≠ [] →
          (walkDFS w f p t d).2 = some GoErr.stopWalk))
      ?hnode ?hnil ?hcons⟩
  case hnode =>
    intro n m cs hQ p d
    rcases hch : walkDFSChildren w f p cs d with ⟨trace, buffered, r⟩
    have hQ1 : trace.length ≤ 1 := by
      have := (hQ p d).1; rw [hch] at this; exact this
    have hQ2 : trace ≠ [] → r = some GoErr.stopWalk := by
      have := (hQ p d).2; rw [hch] at this; exact this
    rcases hdepth : maxDepthReached w d with _ | _ <;>
      rcases hrd : m.readDirErr with _ | e <;>
        simp only [walkDFS, hdepth, Bool.false_eq_true, if_false, if_true, hrd, hch]
    · rcases r with _ | e2
      · have htr : trace = [] := by
          by_contra hne
          cases hQ2 hne
        subst htr
        simp only [List.nil_append]
        exact walkDFSVisit_stop w f hf buffered
      · constructor
        · exact hQ1
        · intro hne
          have := hQ2 hne
          injection this with h2
          rw [h2]
    · simp
    · simp
    · simp
  case hnil =>
    intro p d
    simp [walkDFSChildren]
  case hcons =>
    intro c rest hP hQ p d
    rcases hrest : walkDFSChildren w f p rest d with ⟨traceR, bufferedR, r⟩
    have hQ1 : traceR.length ≤ 1 := by
      have := (hQ p d).1; rw [hrest] at this; exact this
    have hQ2 : traceR ≠ [] → r = some GoErr.stopWalk := by
      have := (hQ p d).2; rw [hrest] at this; exact this
    rcases hdisc : childDiscovery w c.meta with e | ⟨info, encErr⟩ <;>
      simp only [walkDFSChildren, hdisc, hrest] <;>
      rw [if_neg (childPath_ne p c.name)]
    · simp
    · have hsubLen : (if IsDir info = true then
          walkDFS w f (p ++ [c.name]) c (d + 1) else ([], none)).1.length ≤ 1 := by
        split
        · exact (hP (p ++ [c.name]) (d + 1)).1
        · simp
      have hsubStop : (if IsDir info = true then
          walkDFS w f (p ++ [c.name]) c (d + 1) else ([], none)).1 ≠ [] →
          (if IsDir info = true then
          walkDFS w f (p ++ [c.name]) c (d + 1) else ([], none)).2 =
            some GoErr.stopWalk := by
        split
        · exact (hP (p ++ [c.name]) (d + 1)).2
        · simp
      split
      · rename_i e2 hserr
        constructor
        · exact hsubLen
        · intro hne
          have := hsubStop hne
          rw [hserr] at this
          injection this with h2
          rw [h2]
      · rename_i hserr
        have hempty : (if IsDir info = true then
            walkDFS w f (p ++ [c.name]) c (d + 1) else ([], none)).1 = [] := by
          by_contra hne
          have := hsubStop hne
          rw [hserr] at this
          cases this
        simp only [hempty, List.nil_append]
        exact ⟨hQ1, hQ2⟩

theorem walkWalk_ne_stop (w : WalkOpts) (f : WalkFn) (p : List String)
    (t : FsTree) : (WalkWalk w f p t).2 ≠ some GoErr.stopWalk := by
  by_cases ha0 : w.Algorithm = AlgorithmBasic
  · rcases hr : walkBasic w f p t 0 with ⟨trace, err⟩
    rcases err with _ | e
    · have htr : WalkWalk w f p t = (trace, none) := by simp [WalkWalk, ha0, hr]
      rw [htr]; simp
    · by_cases he : e = GoErr.stopWalk
      · subst he
        have htr : WalkWalk w f p t = (trace, none) := by
          simp [WalkWalk, ha0, hr]
        rw [htr]; simp
      · have htr : WalkWalk w f p t = (trace, some e) := by
          simp [WalkWalk, ha0, hr, he]
        rw [htr]
        simp only [ne_eq, Option.some.injEq]
        exact he
  · by_cases ha1 : w.Algorithm = AlgorithmDepthFirst
    · rcases hr : walkDFS w f p t 0 with ⟨trace, err⟩
      rcases err with _ | e
      · have htr : WalkWalk w f p t = (trace, none) := by
          simp [WalkWalk, AlgorithmBasic, AlgorithmDepthFirst, ha0, ha1, hr]
        rw [htr]; simp
      · by_cases he : e = GoErr.stopWalk
        · subst he
          have htr : WalkWalk w f p t = (trace, none) := by
            simp [WalkWalk, AlgorithmBasic, AlgorithmDepthFirst, ha0, ha1, hr]
          rw [htr]; simp
        · have htr : WalkWalk w f p t = (trace, some e) := by
            simp [WalkWalk, AlgorithmBasic, AlgorithmDepthFirst, ha0, ha1, hr, he]
          rw [htr]
          simp only [ne_eq, Option.some.injEq]
          exact he
    · have ha0i : ¬(w.Algorithm = 0) := by simpa [AlgorithmBasic] using ha0
      have ha1i : ¬(w.Algorithm = 1) := by simpa [AlgorithmDepthFirst] using ha1
      have htr : WalkWalk w f p t = ([], some GoErr.invalidAlgorithm) := by
        simp [WalkWalk, AlgorithmBasic, AlgorithmDepthFirst, ha0i, ha1i]
      rw [htr]; simp

theorem walkWalk_nil_clean (w : WalkOpts) (p : List String) (t : FsTree)
    (hwf : FsTree.wf t = true) :
    (WalkWalk w nilVisitor p t).2 = none ∨
      (WalkWalk w nilVisitor p t).2 = some GoErr.invalidAlgorithm := by
  have hf : ∀ a b c, nilVisitor a b c = none := fun _ _ _ => rfl
  by_cases ha0 : w.Algorithm = AlgorithmBasic
  · have hr := walkBasic_clean w nilVisitor hf t hwf p 0
    have htr : (WalkWalk w nilVisitor p t).2 = none := by
      simp [WalkWalk, ha0, hr]
    exact Or.inl htr
  · by_cases ha1 : w.Algorithm = AlgorithmDepthFirst
    · have hr := walkDFS_clean w nilVisitor hf t hwf p 0
      have htr : (WalkWalk w nilVisitor p t).2 = none := by
        simp [WalkWalk, AlgorithmBasic, AlgorithmDepthFirst, ha0, ha1, hr]
      exact Or.inl htr
    · have ha0i : ¬(w.Algorithm = 0) := by simpa [AlgorithmBasic] using ha0
      have ha1i : ¬(w.Algorithm = 1) := by simpa [AlgorithmDepthFirst] using ha1
      have htr : WalkWalk w nilVisitor p t = ([], some GoErr.invalidAlgorithm) := by
        simp [WalkWalk, AlgorithmBasic, AlgorithmDepthFirst, ha0i, ha1i]
      rw [htr]
      exact Or.inr rfl

theorem walkWalk_const_stop (w : WalkOpts) (f : WalkFn) (p : List String)
    (t : FsTree) (hf : ∀ a b c, f a b c = some GoErr.stopWalk) :
    (WalkWalk w f p t).1.length ≤ 1 ∧
    ((WalkWalk w f p t).1 ≠ [] →
      (WalkWalk w f p t).1.length = 1 ∧ (WalkWalk w f p t).2 = none) := by
  by_cases ha0 : w.Algorithm = AlgorithmBasic
  · have hb := (walkBasic_stop_pair w f hf).1 t p 0
    rcases hr : walkBasic w f p t 0 with ⟨trace, err⟩
    rw [hr] at hb
    have h1 : trace.length ≤ 1 := hb.1
    have h2 : trace ≠ [] → err = some GoErr.stopWalk := hb.2
    rcases err with _ | e
    · have htr : WalkWalk w f p t = (trace, none) := by simp [WalkWalk, ha0, hr]
      rw [htr]
      exact ⟨h1, fun hne => ⟨by have := List.length_pos.mpr hne; simp at this ⊢; omega, rfl⟩⟩
    · by_cases he : e = GoErr.stopWalk
      · subst he
        have htr : WalkWalk w f p t = (trace, none) := by
          simp [WalkWalk, ha0, hr]
        rw [htr]
        exact ⟨h1, fun hne => ⟨by have := List.length_pos.mpr hne; simp at this ⊢; omega, rfl⟩⟩
      · have htr : WalkWalk w f p t = (trace, some e) := by
          simp [WalkWalk, ha0, hr, he]
        rw [htr]
        exact ⟨h1, fun hne => absurd (Option.some.inj (h2 hne)) he⟩
  · by_cases ha1 : w.Algorithm = AlgorithmDepthFirst
    · have hb := (walkDFS_stop_pair w f hf).1 t p 0
      rcases hr : walkDFS w f p t 0 with ⟨trace, err⟩
      rw [hr] at hb
      have h1 : trace.length ≤ 1 := hb.1
      have h2 : trace ≠ [] → err = some GoErr.stopWalk := hb.2
      rcases err with _ | e
      · have htr : WalkWalk w f p t = (trace, none) := by
          simp [WalkWalk, AlgorithmBasic, AlgorithmDepthFirst, ha0, ha1, hr]
        rw [htr]
        exact ⟨h1, fun hne => ⟨by have := List.length_pos.mpr hne; simp at this ⊢; omega, rfl⟩⟩
      · by_cases he : e = GoErr.stopWalk
        · subst he
          have htr : WalkWalk w f p t = (trace, none) := by
            simp [WalkWalk, AlgorithmBasic, AlgorithmDepthFirst, ha0, ha1, hr]
          rw [htr]
          exact ⟨h1, fun hne => ⟨by have := List.length_pos.mpr hne; simp at this ⊢; omega, rfl⟩⟩
        · have htr : WalkWalk w f p t = (trace, some e) := by
            simp [WalkWalk, AlgorithmBasic, AlgorithmDepthFirst, ha0, ha1, hr, he]
          rw [htr]
          exact ⟨h1, fun hne => absurd (Option.some.inj (h2 hne)) he⟩
    · have ha0i : ¬(w.Algorithm = 0) := by simpa [AlgorithmBasic] using ha0
      have ha1i : ¬(w.Algorithm = 1) := by simpa [AlgorithmDepthFirst] using ha1
      have htr : WalkWalk w f p t = ([], some GoErr.invalidAlgorithm) := by
        simp [WalkWalk, AlgorithmBasic, AlgorithmDepthFirst, ha0i, ha1i]
      rw [htr]
      exact ⟨by simp, fun hne => absurd rfl hne⟩

/-- Result of the afero `LstatIfPossible` call: the possibly-nil file
info, whether an lstat was actually performed, and the possibly-nil error. -/
structure LstatAnswer where
  fileInfo : Option FileInfo
  lstatCalled : Bool
  err : Option GoErr
deriving DecidableEq

/-- The afero backend capabilities that the symlink operations of `path.go`
query by type assertion: the optional `LinkReader` interface (readlink) and
the optional `Lstater` interface (non-dereferencing stat).  `none` models a
filesystem whose type assertion fails. -/
structure AferoFs where
  linkReader : Option (String → Except GoErr String)
  lstater : Option (String → LstatAnswer)

/-- The method `Resolve` of `path.go`: a one-level readlink.  Requires the
`afero.LinkReader` capability; its absence is a capability-missing error. -/
def Path.Resolve (fs : AferoFs) (path : String) : Except GoErr String :=
  match fs.linkReader with
  | none => Except.error (GoErr.doesNotImplement "afero.LinkReader")
  | some readlink =>
    match readlink path with
    | Except.error e => Except.error e
    | Except.ok resolvedPathStr => Except.ok resolvedPathStr

/-- The method `IsSymlink` of `path.go`.  The Go function returns the pair
`(bool, error)`; a non-nil error is the `Except.error` case.  When the
backend implements `afero.Lstater` but reports `lstatCalled = false` with a
nil error, the Go code returns `(false, nil)` (the comment in the source
reads: if lstat was not called the filesystem does not implement it, thus
it is not a symlink).  A nil fileInfo with lstat performed would make
`fileInfo.Mode()` panic (`nilDereference`). -/
def Path.IsSymlink (fs : AferoFs) (path : String) : Except GoErr Bool :=
  match fs.lstater with
  | none => Except.error (GoErr.doesNotImplement "afero.Lstater")
  | some lstat =>
    let answer := lstat path
    if answer.err ≠ none ∨ answer.lstatCalled = false then
      match answer.err with
      | some e => Except.error e
      | none => Except.ok false
    else
      match answer.fileInfo with
      | some fileInfo => Except.ok (fileInfo.kind == Kind.symlink)
      | none => Except.error GoErr.nilDereference

/-!
The relative-path computation of `path.go`.  Go strings are embedded as
their character lists (`List Char`); the paths involved are ASCII, where
Go byte indexing and character indexing agree.
-/

/-- The whitespace set of `unicode.IsSpace` restricted to ASCII, as used by
`strings.TrimSpace`. -/
def isSpaceGo (c : Char) : Bool :=
  c == ' ' || c == '\t' || c == '\n' || c == '\x0B' || c == '\x0C' || c == '\r'

/-- A helper of `normalizePathString`: `strings.TrimSpace`. -/
def trimSpaceGo (s : List Char) : List Char :=
  ((s.dropWhile isSpaceGo).reverse.dropWhile isSpaceGo).reverse

/-- A helper of `normalizePathString`: `strings.TrimPrefix(path, "./")`. -/
def trimPrefixDotSlash (s : List Char) : List Char :=
  match s with
  | '.' :: '/' :: rest => rest
  | _ => s

/-- A helper of `normalizePathString`: `strings.TrimRight(path, " ")`. -/
def trimRightSpace (s : List Char) : List Char :=
  (s.reverse.dropWhile (fun c => c == ' ')).reverse

/-- The function `normalizePathString` of `path.go`. -/
def normalizePathString (path : List Char) : List Char :=
  let path := trimSpaceGo path
  let path := trimPrefixDotSlash path
  let path := trimRightSpace path
  if path.length > 1 then
    (if path.getLast? = some '/' then path.dropLast else path)
  else path

/-- The split `strings.Split(path, string(filepath.Separator))` used by
`RelativeTo`, for the single-character separator `/`. -/
def splitSlash : List Char → List (List Char)
  | [] => [[]]
  | c :: rest =>
    if c = '/' then [] :: splitSlash rest
    else
      match splitSlash rest with
      | [] => [[c]]
      | comp :: comps => (c :: comp) :: comps

/-- The function `normalizePathParts` of `path.go`: remove the trailing
empty components of a split, never removing the first element. -/
def normalizePathParts (parts : List (List Char)) : List (List Char) :=
  match parts with
  | [] => []
  | first :: rest => first :: (rest.reverse.dropWhile (fun s => s.isEmpty)).reverse

/-- The `strings.Join(relativePath, "/")` of `RelativeTo`. -/
def joinSlash : List (List Char) → List Char
  | [] => []
  | [comp] => comp
  | comp :: comps => comp ++ '/' :: joinSlash comps

/-- The component-comparison loop of `RelativeTo`: for each index of
`otherParts` the Go code reads `thisParts[idx]` with no bounds check (an
out-of-range index is a runtime panic) and compares it with the component
of `otherParts`; `relativeBase` is the last successfully compared index. -/
def relativeToLoop (thisParts : List (List Char)) (pRaw otherNorm : List Char) :
    List (List Char) → Nat → Nat → Except GoErr Nat
  | [], _, relativeBase => Except.ok relativeBase
  | part :: restParts, idx, _ =>
    match thisParts.get? idx with
    | none => Except.error GoErr.indexOutOfRange
    | some thisPart =>
      if thisPart ≠ part then
        Except.error (GoErr.relativeToMismatch pRaw otherNorm)
      else relativeToLoop thisParts pRaw otherNorm restParts (idx + 1) idx

/-- The method `RelativeTo` of `path.go`.  The Go method returns
`(p, err)` on mismatch; the error case carries the mismatch error, and a
runtime panic from out-of-range indexing is the `indexOutOfRange` outcome. -/
def RelativeTo (pPath otherPath : List Char) : Except GoErr (List Char) :=
  let thisPath := normalizePathString pPath
  let otherNorm := normalizePathString otherPath
  let thisParts := normalizePathParts (splitSlash thisPath)
  let otherParts := normalizePathParts (splitSlash otherNorm)
  match relativeToLoop thisParts pPath otherNorm otherParts 0 0 with
  | Except.error e => Except.error e
  | Except.ok relativeBase =>
    let relativePath := thisParts.drop (relativeBase + 1)
    let relativePath :=
      match relativePath with
      | [] => [['.']]
      | [s] => if s.isEmpty then [['.']] else [s]
      | _ => relativePath
    Except.ok (joinSlash relativePath)

/-!
The recursive symlink canonicalizer.  `ResolveAll` and the helpers feeding
it are part of the repository but are not among the sources under
verification (only their tests and the spec describe them), so they are
modelled from the spec, §4.3.
-/

/-- Modelled from the spec: lexical joining of path components in the way
`filepath.Join` joins and cleans paths — empty and `.` components vanish
and `..` removes the preceding component.  Needed because `ResolveAll` (a
repository function absent from the sources) joins a symlink target with
the symlink parent and the remaining suffix. -/
def cleanJoin (comps : List String) : List String :=
  comps.foldl
    (fun acc c =>
      if c = "." ∨ c = "" then acc
      else if c = ".." then acc.dropLast
      else acc ++ [c])
    []

/-- Modelled from the spec: what the resolver queries about the filesystem —
whether a prefix (a component list) designates a symlink and, if so, the
link target split into components together with whether the target is
absolute.  This stands for the `IsSymlink`/`Resolve` calls of the missing
`ResolveAll`. -/
structure LinkEnv where
  isLink : List String → Option (List String × Bool)

/-- Modelled from the spec: (§4.3) one left-to-right scan of the components.
For the prefix ending at each component, query whether that prefix is a
symlink; the first symlink prefix triggers the continuation `k` on the
rewritten path (absolute target, or parent joined with relative target,
joined with the unscanned suffix); if no prefix is a symlink the
already-scanned path is returned unchanged. -/
def resolveScan (env : LinkEnv) (k : List String → Option (List String)) :
    List String → List String → Option (List String)
  | pre, [] => some pre
  | pre, comp :: rest =>
    let pre2 := pre ++ [comp]
    match env.isLink pre2 with
    | none => resolveScan env k pre2 rest
    | some (target, isAbs) =>
      if isAbs then k (cleanJoin target ++ rest)
      else k (cleanJoin (pre ++ target) ++ rest)

/-- Modelled from the spec: (§4.3) `ResolveAll`, canonicalizing a path by
rescanning after every symlink rewrite.  The spec notes the algorithm has
no cycle detection and may not terminate on cyclic link chains (§9), so
the recursion is bounded by fuel: `none` is the diverging case. -/
def resolveAllFuel (env : LinkEnv) : Nat → List String → Option (List String)
  | 0, path => resolveScan env (fun _ => none) [] path
  | fuel + 1, path => resolveScan env (resolveAllFuel env fuel) [] path

theorem resolveScan_noLink (env : LinkEnv) (k : List String → Option (List String)) :
    ∀ (rest pre : List String),
      (∀ j < rest.length, env.isLink (pre ++ rest.take (j + 1)) = none) →
      resolveScan env k pre rest = some (pre ++ rest) := by
  intro rest
  induction rest with
  | nil => intro pre _; simp [resolveScan]
  | cons comp rest2 ih =>
    intro pre h
    have h0 : env.isLink (pre ++ [comp]) = none := by
      have := h 0 (by simp)
      simpa using this
    simp only [resolveScan, h0]
    have h2 := ih (pre ++ [comp]) (fun j hj => by
      have := h (j + 1) (by simpa using Nat.succ_lt_succ hj)
      simpa [List.append_assoc] using this)
    rw [h2]
    simp

theorem resolveAllFuel_noLink (env : LinkEnv) (fuel : Nat) (path : List String)
    (h : ∀ j < path.length, env.isLink (path.take (j + 1)) = none) :
    resolveAllFuel env fuel path = some path := by
  cases fuel with
  | zero =>
    have := resolveScan_noLink env (fun _ => none) path [] (by simpa using h)
    simpa using this
  | succ fuel2 =>
    have := resolveScan_noLink env (resolveAllFuel env fuel2) path [] (by simpa using h)
    simpa using this

theorem maxDepthReached_zero (w : WalkOpts) : maxDepthReached w 0 = false := by
  unfold maxDepthReached
  rw [if_neg]
  rintro ⟨h1, h2⟩
  omega

theorem walkWalk_trace_cases (w : WalkOpts) (f : WalkFn) (p : List String)
    (t : FsTree) :
    (WalkWalk w f p t).1 = (walkBasic w f p t 0).1 ∨
    (WalkWalk w f p t).1 = (walkDFS w f p t 0).1 ∨
    (WalkWalk w f p t).1 = [] := by
  by_cases ha0 : w.Algorithm = AlgorithmBasic
  · left
    rcases hr : walkBasic w f p t 0 with ⟨trace, err⟩
    rcases err with _ | e
    · have htr : WalkWalk w f p t = (trace, none) := by simp [WalkWalk, ha0, hr]
      rw [htr]
    · by_cases he : e = GoErr.stopWalk
      · subst he
        have htr : WalkWalk w f p t = (trace, none) := by simp [WalkWalk, ha0, hr]
        rw [htr]
      · have htr : WalkWalk w f p t = (trace, some e) := by
          simp [WalkWalk, ha0, hr, he]
        rw [htr]
  · by_cases ha1 : w.Algorithm = AlgorithmDepthFirst
    · right; left
      rcases hr : walkDFS w f p t 0 with ⟨trace, err⟩
      rcases err with _ | e
      · have htr : WalkWalk w f p t = (trace, none) := by
          simp [WalkWalk, AlgorithmBasic, AlgorithmDepthFirst, ha0, ha1, hr]
        rw [htr]
      · by_cases he : e = GoErr.stopWalk
        · subst he
          have htr : WalkWalk w f p t = (trace, none) := by
            simp [WalkWalk, AlgorithmBasic, AlgorithmDepthFirst, ha0, ha1, hr]
          rw [htr]
        · have htr : WalkWalk w f p t = (trace, some e) := by
            simp [WalkWalk, AlgorithmBasic, AlgorithmDepthFirst, ha0, ha1, hr, he]
          rw [htr]
    · right; right
      have ha0i : ¬(w.Algorithm = 0) := by simpa [AlgorithmBasic] using ha0
      have ha1i : ¬(w.Algorithm = 1) := by simpa [AlgorithmDepthFirst] using ha1
      simp [WalkWalk, AlgorithmBasic, AlgorithmDepthFirst, ha0i, ha1i]

/-- Modelled from the spec: (§4.2, §7) the engine treatment of the
skip-subtree sentinel, which the repository declares and handles outside
the sources under verification (the sources contain only its tests).  For
the two algorithms of `walk.go` — both of which visit a directory only
after descending into it — the spec requires the signal to be accepted as
a harmless no-op, so it is absorbed at the visitor-call boundary. -/
def absorbSkip (f : WalkFn) : WalkFn := fun a b c =>
  match f a b c with
  | some GoErr.skipSubtree => none
  | r => r

/-- Modelled from the spec: `Walk` driven by a visitor whose skip-subtree
signal is absorbed as a no-op (see `absorbSkip`). -/
def WalkSkipAbsorbing (w : WalkOpts) (f : WalkFn) (rootPath : List String)
    (root : FsTree) : List Visit × Option GoErr :=
  WalkWalk w (absorbSkip f) rootPath root

/-- The tree of the depth test: two files at the root and one
subdirectory holding two more files. -/
def zeroDepthTree : FsTree :=
  fsDir "root"
    [fsFile "file0.txt" 5, fsFile "file1.txt" 5,
     fsDir "subdir" [fsFile "file0.txt" 5, fsFile "file1.txt" 5]]

/-- The tree of the ordering test: `1.txt`, `2.txt`, `3.txt` and
`subdir/4.txt`, discovered in that order. -/
def orderTree : FsTree :=
  fsDir "root"
    [fsFile "1.txt" 0, fsFile "2.txt" 0, fsFile "3.txt" 0,
     fsDir "subdir" [fsFile "4.txt" 0]]

/-- The symlink environment of the canonicalization round-trip:
`root/mnt/nfs/data/x` real, `root/mnt/nfs/symlinks/home -> ../data` and
`root/home -> ./mnt/nfs/symlinks/home`, both relative. -/
def roundTripEnv : LinkEnv :=
  { isLink := fun pre =>
      if pre = ["root", "mnt", "nfs", "symlinks", "home"] then
        some (["..", "data"], false)
      else if pre = ["root", "home"] then
        some ([".", "mnt", "nfs", "symlinks", "home"], false)
      else none }

/-- An environment with no symlinks at all. -/
def noLinkEnv : LinkEnv := { isLink := fun _ => none }

/-- A backend that implements neither symlink-related interface. -/
def noCapFs : AferoFs := { linkReader := none, lstater := none }

/-- A backend whose `Lstater` type assertion succeeds but which reports
that lstat was not actually performed (`lstatCalled = false`, no error):
per the spec's backend contract this backend lacks the lstat capability. -/
def lstatUnsupportedFs : AferoFs :=
  { linkReader := some (fun _ => Except.ok "target")
    lstater := some (fun _ => ⟨some ⟨Kind.file, 0⟩, false, none⟩) }

/-!
The claims.
-/

/-- C1: for every walk configuration with `maxDepth = N ≥ 0`, every
algorithm selector and every tree of backend answers, `Walk` visits no
node whose path-depth relative to the root exceeds `N + 1` (directories
past the bound are not descended into); concretely, `maxDepth = 0` on a
tree with two root files and one subdirectory holding two files visits
exactly 3 nodes — the two files and the subdirectory, not its children —
under both algorithms. -/
theorem claimC1_depth_limit :
    (∀ w f (p : List String) t, 0 ≤ w.Depth →
      ∀ v ∈ (WalkWalk w f p t).1,
        (v.path.length : Int) - p.length ≤ w.Depth + 1) ∧
    (∀ algo, (algo = AlgorithmBasic ∨ algo = AlgorithmDepthFirst) →
      pathsOf (WalkWalk { DefaultWalkOpts with Depth := 0, Algorithm := algo }
          nilVisitor ["root"] zeroDepthTree).1 =
        [["root", "file0.txt"], ["root", "file1.txt"], ["root", "subdir"]] ∧
      (WalkWalk { DefaultWalkOpts with Depth := 0, Algorithm := algo }
          nilVisitor ["root"] zeroDepthTree).1.length = 3) := by
  constructor
  · intro w f p t hD v hv
    rcases walkWalk_trace_cases w f p t with h | h | h <;> rw [h] at hv
    · have := (walkBasic_depth_pair w f hD).1 t p 0 v hv
      omega
    · have := (walkDFS_depth_pair w f hD).1 t p 0 v hv
      omega
    · simp at hv
  · rintro algo (h | h) <;> subst h <;> exact ⟨by decide, by decide⟩

/-- C1 witness: the depth bound applied to the concrete zero-depth walk,
and the concrete part at the Basic selector. -/
theorem claimC1_depth_limit_witness :
    ((0 : Int) ≤ ({ DefaultWalkOpts with Depth := 0 } : WalkOpts).Depth ∧
     ∀ v ∈ (WalkWalk { DefaultWalkOpts with Depth := 0 } nilVisitor ["root"]
        zeroDepthTree).1,
        (v.path.length : Int) - (["root"] : List String).length ≤
          ({ DefaultWalkOpts with Depth := 0 } : WalkOpts).Depth + 1) ∧
    pathsOf (WalkWalk { DefaultWalkOpts with
                          Depth := 0,
                          Algorithm := AlgorithmBasic }
        nilVisitor ["root"] zeroDepthTree).1 =
      [["root", "file0.txt"], ["root", "file1.txt"], ["root", "subdir"]] :=
  ⟨⟨by decide,
    claimC1_depth_limit.1 { DefaultWalkOpts with Depth := 0 } nilVisitor
      ["root"] zeroDepthTree (by decide)⟩,
   (claimC1_depth_limit.2 AlgorithmBasic (Or.inl rfl)).1⟩

/-- C2: in the post-order depth-first algorithm, each directory first
recurses into its directory children (in discovery order) and buffers all
immediate children; only after discovery and recursion are complete are
the buffered children filtered and handed to the visitor in their
original discovery order; concretely, on 1.txt, 2.txt, 3.txt,
subdir/4.txt (discovered in that order, directories visited) the visit
order is subdir/4.txt, 1.txt, 2.txt, 3.txt, subdir. -/
theorem claimC2_postorder_buffering :
    (∀ w f (p : List String) n m (cs : List FsTree) d,
      FsTree.wf (FsTree.node n m cs) = true → (∀ a b c, f a b c = none) →
      walkDFS w f p (FsTree.node n m cs) d =
        ((if maxDepthReached w d then []
          else dfsSubShape w f p d cs ++ dfsAdmittedShape w p cs), none)) ∧
    pathsOf (WalkWalk { DefaultWalkOpts with Algorithm := AlgorithmDepthFirst }
        nilVisitor ["root"] orderTree).1 =
      [["root", "subdir", "4.txt"], ["root", "1.txt"], ["root", "2.txt"],
       ["root", "3.txt"], ["root", "subdir"]] := by
  constructor
  · intro w f p n m cs d hwf hf
    have := walkDFS_clean w f hf (FsTree.node n m cs) hwf p d
    simpa [FsTree.children] using this
  · decide

/-- C2 witness: the structural equation applied to the concrete ordering
tree at its root. -/
theorem claimC2_postorder_buffering_witness :
    walkDFS { DefaultWalkOpts with Algorithm := AlgorithmDepthFirst }
        nilVisitor ["root"] orderTree 0 =
      ((if maxDepthReached { DefaultWalkOpts with
            Algorithm := AlgorithmDepthFirst } 0 then []
        else dfsSubShape { DefaultWalkOpts with
              Algorithm := AlgorithmDepthFirst } nilVisitor ["root"] 0
            orderTree.children ++
          dfsAdmittedShape { DefaultWalkOpts with
              Algorithm := AlgorithmDepthFirst } ["root"]
            orderTree.children), none) :=
  claimC2_postorder_buffering.1 _ nilVisitor ["root"] "root"
    (NodeMeta.clean Kind.dir 0) orderTree.children 0 (by decide)
    (fun _ _ _ => rfl)

/-- C3: a visitor returning the skip-subtree signal never makes `Walk`
fail — for the two algorithms of `walk.go`, neither of which can prune
(descent precedes every directory visit), the signal is a harmless no-op:
the walk behaves exactly like one whose visitor always continues, and the
signal is never returned as the overall error. -/
theorem claimC3_skip_subtree_noop :
    ∀ w f (p : List String) t, FsTree.wf t = true →
      (∀ a b c, f a b c = none ∨ f a b c = some GoErr.skipSubtree) →
      WalkSkipAbsorbing w f p t = WalkWalk w nilVisitor p t ∧
      (WalkSkipAbsorbing w f p t).2 ≠ some GoErr.skipSubtree := by
  intro w f p t hwf hf
  have habs : absorbSkip f = nilVisitor := by
    funext a b c
    rcases hf a b c with h | h <;> simp [absorbSkip, h, nilVisitor]
  have heq : WalkSkipAbsorbing w f p t = WalkWalk w nilVisitor p t := by
    unfold WalkSkipAbsorbing
    rw [habs]
  refine ⟨heq, ?_⟩
  rw [heq]
  rcases walkWalk_nil_clean w p t hwf with h | h <;> rw [h] <;> simp

/-- C3 witness: a visitor that always returns skip-subtree on the concrete
two-level tree. -/
theorem claimC3_skip_subtree_noop_witness :
    WalkSkipAbsorbing DefaultWalkOpts (fun _ _ _ => some GoErr.skipSubtree)
        ["root"] zeroDepthTree =
      WalkWalk DefaultWalkOpts nilVisitor ["root"] zeroDepthTree ∧
    (WalkSkipAbsorbing DefaultWalkOpts (fun _ _ _ => some GoErr.skipSubtree)
        ["root"] zeroDepthTree).2 ≠ some GoErr.skipSubtree :=
  claimC3_skip_subtree_noop DefaultWalkOpts _ ["root"] zeroDepthTree
    (by decide) (fun _ _ _ => Or.inr rfl)

/-- C4: for every algorithm selector and every tree, a visitor that
returns the stop-walk sentinel on its first invocation is invoked exactly
once and `Walk` returns nil; and the stop-walk sentinel is always
swallowed at the top of `Walk`, never surfaced as its error. -/
theorem claimC4_stop_walk_swallowed :
    ∀ w f (p : List String) t,
      ((∀ a b c, f a b c = some GoErr.stopWalk) →
        (WalkWalk w f p t).1.length ≤ 1 ∧
        ((WalkWalk w f p t).1 ≠ [] →
          (WalkWalk w f p t).1.length = 1 ∧ (WalkWalk w f p t).2 = none)) ∧
      (WalkWalk w f p t).2 ≠ some GoErr.stopWalk := by
  intro w f p t
  exact ⟨fun hf => walkWalk_const_stop w f p t hf, walkWalk_ne_stop w f p t⟩

/-- C4 witness: the constantly-stopping visitor on the concrete tree is
invoked exactly once and the walk reports success. -/
theorem claimC4_stop_walk_swallowed_witness :
    (WalkWalk DefaultWalkOpts (fun _ _ _ => some GoErr.stopWalk) ["root"]
        zeroDepthTree).1.length = 1 ∧
    (WalkWalk DefaultWalkOpts (fun _ _ _ => some GoErr.stopWalk) ["root"]
        zeroDepthTree).2 = none :=
  ((claimC4_stop_walk_swallowed DefaultWalkOpts _ ["root"] zeroDepthTree).1
    (fun _ _ _ => rfl)).2 (by decide)

/-- C5: the query filter is a pure predicate — a File node is admitted iff
`VisitFiles` is set and its size lies within the inclusive bounds (each
bound applying only when nonnegative), a Directory iff `VisitDirs`, a
Symlink iff `VisitSymlinks`; the error component is always nil, and the
size bounds are inclusive at both ends and apply only to files. -/
theorem claimC5_query_filter :
    (∀ w i, ((passesQuerySpecification w i).1 = true ↔
      (match i.kind with
       | Kind.file => w.VisitFiles = true ∧
           (0 ≤ w.MinimumFileSize → w.MinimumFileSize ≤ i.size) ∧
           (0 ≤ w.MaximumFileSize → i.size ≤ w.MaximumFileSize)
       | Kind.dir => w.VisitDirs = true
       | Kind.symlink => w.VisitSymlinks = true)) ∧
      (passesQuerySpecification w i).2 = none) ∧
    ((passesQuerySpecification { DefaultWalkOpts with
                                 MinimumFileSize := 10,
                                 MaximumFileSize := 20 } ⟨Kind.file, 10⟩).1 = true ∧
     (passesQuerySpecification { DefaultWalkOpts with
                                 MinimumFileSize := 10,
                                 MaximumFileSize := 20 } ⟨Kind.file, 20⟩).1 = true ∧
     (passesQuerySpecification { DefaultWalkOpts with
                                 MinimumFileSize := 10,
                                 MaximumFileSize := 20 } ⟨Kind.file, 9⟩).1 = false ∧
     (passesQuerySpecification { DefaultWalkOpts with
                                 MinimumFileSize := 10,
                                 MaximumFileSize := 20 } ⟨Kind.file, 21⟩).1 = false ∧
     (passesQuerySpecification { DefaultWalkOpts with
                                 MinimumFileSize := 10,
                                 MaximumFileSize := 20 } ⟨Kind.dir, 0⟩).1 = true ∧
     (passesQuerySpecification { DefaultWalkOpts with
                                 MinimumFileSize := 10,
                                 MaximumFileSize := 20 } ⟨Kind.symlink, 0⟩).1 = true) := by
  constructor
  · intro w i
    refine ⟨?_, passesQuerySpecification_snd w i⟩
    rcases i with ⟨k, size⟩
    cases k
    all_goals
      simp only [passesQuerySpecification, IsFile, IsDir, IsSymlink,
        MeetsMinimumSize, MeetsMaximumSize]
    all_goals split_ifs
    all_goals simp_all
    all_goals omega
  · refine ⟨by decide, by decide, by decide, by decide, by decide, by decide⟩

/-- C8: for both algorithms, a child whose metadata query returns absent
metadata together with a nil error aborts the walk immediately — no
visits at all — with the dedicated `ErrInfoIsNil` protocol-violation
error, an error value distinct from every backend I/O error. -/
theorem claimC8_info_nil_aborts :
    ∀ w f (p : List String) rootName rootMeta childName childMeta
      (childKids rest : List FsTree),
      (w.Algorithm = AlgorithmBasic ∨ w.Algorithm = AlgorithmDepthFirst) →
      rootMeta.readDirErr = none →
      (if w.FollowSymlinks then childMeta.statRes else childMeta.lstatRes) =
        ((none : Option FileInfo), (none : Option GoErr)) →
      WalkWalk w f p
          (FsTree.node rootName rootMeta
            (FsTree.node childName childMeta childKids :: rest)) =
        ([], some GoErr.infoIsNil) ∧
      ∀ code, GoErr.infoIsNil ≠ GoErr.io code := by
  intro w f p rn rm cn cm ck rest halgo hrd habsent
  have hdisc : childDiscovery w cm = Sum.inl GoErr.infoIsNil := by
    unfold childDiscovery
    by_cases hfollow : w.FollowSymlinks = true
    · rw [if_pos hfollow] at habsent
      rw [if_pos hfollow, habsent]
    · rw [if_neg hfollow] at habsent
      rw [if_neg hfollow, habsent]
  have hbasic : walkBasic w f p
      (FsTree.node rn rm (FsTree.node cn cm ck :: rest)) 0 =
      ([], some GoErr.infoIsNil) := by
    simp only [walkBasic, maxDepthReached_zero, Bool.false_eq_true, if_false, hrd]
    simp only [walkBasicChildren, FsTree.name, FsTree.meta, hdisc]
    rw [if_neg (childPath_ne p cn)]
  have hchildren : walkDFSChildren w f p
      (FsTree.node cn cm ck :: rest) 0 =
      ([], [], some GoErr.infoIsNil) := by
    simp only [walkDFSChildren, FsTree.name, FsTree.meta, hdisc]
    rw [if_neg (childPath_ne p cn)]
  have hdfs : walkDFS w f p
      (FsTree.node rn rm (FsTree.node cn cm ck :: rest)) 0 =
      ([], some GoErr.infoIsNil) := by
    simp only [walkDFS, maxDepthReached_zero, Bool.false_eq_true, if_false, hrd,
      hchildren]
  refine ⟨?_, fun code => by simp⟩
  rcases halgo with ha | ha
  · simp [WalkWalk, ha, hbasic]
  · simp [WalkWalk, AlgorithmBasic, AlgorithmDepthFirst, ha, hdfs]

/-- C8 witness: a concrete tree whose first child answers `Lstat` with
neither metadata nor error. -/
theorem claimC8_info_nil_aborts_witness :
    WalkWalk DefaultWalkOpts nilVisitor ["root"]
        (FsTree.node "root" (NodeMeta.clean Kind.dir 0)
          (FsTree.node "bad"
            ⟨(some ⟨Kind.file, 0⟩, none), (none, none), none⟩ [] :: [])) =
      ([], some GoErr.infoIsNil) :=
  (claimC8_info_nil_aborts DefaultWalkOpts nilVisitor ["root"] "root"
    (NodeMeta.clean Kind.dir 0) "bad"
    ⟨(some ⟨Kind.file, 0⟩, none), (none, none), none⟩ [] []
    (Or.inl rfl) rfl (by decide)).1

/-- C10: on every wellformed tree and every configuration, the Basic
engine and the post-order depth-first engine driven by an
always-continue visitor invoke the visitor on exactly the same set of
paths, each path exactly once (the traces are duplicate-free permutations
of one another), and `Walk` dispatches to exactly these two engines. -/
theorem claimC10_basic_dfs_equivalence :
    ∀ w (p : List String) t, FsTree.wf t = true →
      (pathsOf (walkBasic w nilVisitor p t 0).1).Perm
        (pathsOf (walkDFS w nilVisitor p t 0).1) ∧
      (pathsOf (walkBasic w nilVisitor p t 0).1).Nodup ∧
      (pathsOf (walkDFS w nilVisitor p t 0).1).Nodup ∧
      (w.Algorithm = AlgorithmBasic →
        (WalkWalk w nilVisitor p t).1 = (walkBasic w nilVisitor p t 0).1) ∧
      (w.Algorithm = AlgorithmDepthFirst →
        (WalkWalk w nilVisitor p t).1 = (walkDFS w nilVisitor p t 0).1) := by
  intro w p t hwf
  have hf : ∀ a b c, nilVisitor a b c = none := fun _ _ _ => rfl
  have hperm := (basic_dfs_perm_pair w).1 t hwf p 0
  have hnodup := ((basic_nodup_pair w).1 t hwf p 0).1
  have hpermPaths : (pathsOf (walkBasic w nilVisitor p t 0).1).Perm
      (pathsOf (walkDFS w nilVisitor p t 0).1) := hperm.map Visit.path
  refine ⟨hpermPaths, hnodup, hpermPaths.nodup hnodup, ?_, ?_⟩
  · intro ha
    have hb := walkBasic_clean w nilVisitor hf t hwf p 0
    have heq : WalkWalk w nilVisitor p t = walkBasic w nilVisitor p t 0 := by
      simp [WalkWalk, ha, hb]
    rw [heq]
  · intro ha
    by_cases ha0 : w.Algorithm = AlgorithmBasic
    · rw [ha] at ha0
      simp [AlgorithmBasic, AlgorithmDepthFirst] at ha0
    · have hd := walkDFS_clean w nilVisitor hf t hwf p 0
      have heq : WalkWalk w nilVisitor p t = walkDFS w nilVisitor p t 0 := by
        simp [WalkWalk, AlgorithmBasic, AlgorithmDepthFirst, ha0, ha, hd]
      rw [heq]

/-- C10 witness: the equivalence on the concrete two-level tree. -/
theorem claimC10_basic_dfs_equivalence_witness :
    (pathsOf (walkBasic DefaultWalkOpts nilVisitor ["root"] zeroDepthTree 0).1).Perm
      (pathsOf (walkDFS DefaultWalkOpts nilVisitor ["root"] zeroDepthTree 0).1) ∧
    (pathsOf (walkBasic DefaultWalkOpts nilVisitor ["root"] zeroDepthTree 0).1).Nodup :=
  ⟨(claimC10_basic_dfs_equivalence DefaultWalkOpts ["root"] zeroDepthTree
      (by decide)).1,
   (claimC10_basic_dfs_equivalence DefaultWalkOpts ["root"] zeroDepthTree
      (by decide)).2.1⟩

/-- C6: the canonicalizer scans components left to right and rewrites at
the first symlinked prefix; when no prefix is a symlink the input is
returned unchanged (for any fuel bound); and on the concrete round-trip
filesystem, `ResolveAll(root/home/x)` is lexically `root/mnt/nfs/data/x`. -/
theorem claimC6_resolveAll :
    (∀ env fuel (path : List String),
      (∀ j < path.length, env.isLink (path.take (j + 1)) = none) →
      resolveAllFuel env fuel path = some path) ∧
    resolveAllFuel roundTripEnv 5 ["root", "home", "x"] =
      some ["root", "mnt", "nfs", "data", "x"] := by
  constructor
  · exact fun env fuel path h => resolveAllFuel_noLink env fuel path h
  · decide

/-- C6 witness: the identity part at a concrete link-free environment. -/
theorem claimC6_resolveAll_witness :
    resolveAllFuel noLinkEnv 3 ["a", "b"] = some ["a", "b"] :=
  claimC6_resolveAll.1 noLinkEnv 3 ["a", "b"] (by decide)

/-- C7 counterexample: a backend whose `Lstater` type assertion succeeds
but which reports that lstat was not performed (`supported = false`, the
spec's way of saying the backend lacks the capability) with no error makes
`IsSymlink` silently answer `(false, nil)` — not a capability-missing
error, contradicting the claim as stated. -/
theorem claimC7_counterexample :
    Path.IsSymlink lstatUnsupportedFs "/a" = Except.ok false := by decide

/-- C7 as amended: when the backend does not implement the `Lstater`
interface, `IsSymlink` fails with a capability-missing error, and when it
does not implement the `LinkReader` interface, `Resolve` fails with a
capability-missing error; but when `Lstater` is implemented and merely
reports `lstatCalled = false` with no error, `IsSymlink` silently reports
the path as not a symlink. -/
theorem claimC7_capability_errors :
    ∀ fs path,
      (fs.lstater = none →
        Path.IsSymlink fs path =
          Except.error (GoErr.doesNotImplement "afero.Lstater")) ∧
      (fs.linkReader = none →
        Path.Resolve fs path =
          Except.error (GoErr.doesNotImplement "afero.LinkReader")) ∧
      (∀ g, fs.lstater = some g → (g path).lstatCalled = false →
        (g path).err = none → Path.IsSymlink fs path = Except.ok false) := by
  intro fs path
  refine ⟨?_, ?_, ?_⟩
  · intro h
    unfold Path.IsSymlink
    rw [h]
  · intro h
    unfold Path.Resolve
    rw [h]
  · intro g hg hcalled herr
    unfold Path.IsSymlink
    rw [hg]
    simp only [hcalled, herr]
    simp

/-- C7 amended witness: the capability errors and the silent case at
concrete backends. -/
theorem claimC7_capability_errors_witness :
    Path.IsSymlink noCapFs "/a" =
      Except.error (GoErr.doesNotImplement "afero.Lstater") ∧
    Path.Resolve noCapFs "/a" =
      Except.error (GoErr.doesNotImplement "afero.LinkReader") ∧
    Path.IsSymlink lstatUnsupportedFs "/b" = Except.ok false :=
  ⟨(claimC7_capability_errors noCapFs "/a").1 rfl,
   (claimC7_capability_errors noCapFs "/a").2.1 rfl,
   (claimC7_capability_errors lstatUnsupportedFs "/b").2.2 _ rfl rfl rfl⟩

/-- C9: evaluating `RelativeTo` at the failing input — the argument
`/a/b` extends past the receiver `/a` while matching it component-wise —
reaches the out-of-range index `thisParts[2]`, a Go runtime panic, instead
of the relative-path-mismatch error; an in-range mismatch (second
conjunct) does return the mismatch error. -/
theorem claimC9_relativeTo_oob_panic :
    RelativeTo "/a".data "/a/b".data = Except.error GoErr.indexOutOfRange ∧
    RelativeTo "/a/b".data "/x".data =
      Except.error (GoErr.relativeToMismatch "/a/b".data "/x".data) ∧
    RelativeTo "/path/to/foo.txt".data "/path".data =
      Except.ok "to/foo.txt".data := by
  refine ⟨by decide, by decide, by decide⟩

end Pathlib
